import Mathlib

/-!
Verification development for the D* grid planner implemented in
`src/planner/graph_planner/src/d_star.cpp`.

The embedding is shallow and executable:

* Every floating-point value the planner manipulates is a sum of unit step
  costs (1) and diagonal step costs (√2), or the `INF` sentinel, or the `-1`
  sentinel returned by `processState`.  We therefore model `double` exactly by
  `DVal`: an integer pair `(a, b)` denoting `a + b·√2`, plus an `inf`
  constructor.  Comparisons are decided by integer arithmetic and proved
  equivalent to the real-number order; the `==` / `!=` comparisons the
  source performs on `double` are modelled as exact value equality, which
  on this representation coincides with structural equality.
* The node grid `map_` is modelled as a total function from integer
  coordinates to node records.  The source allocates only coordinates in
  `[0, nx) × [0, ny)`, but its neighbour bounds check accepts `x_n = nx` and
  `y_n = ny` (an off-by-one, see claim C5), so reads one past the allocated
  grid do occur; the model determinizes them by extending the grid with
  initialized default nodes at those coordinates.  Concrete scenario cost
  maps are chosen lethal outside the real grid so the phantom cells never
  join a search.
* The open list `open_list_` (a `std::multimap<double, DNodePtr>`) is a
  key-sorted list of key/coordinate pairs; insertion places a new entry after
  all entries with an equal or smaller key, as `multimap::insert` does.
* Loops (`while(1)` in `plan` and `modify`, the walk in the same-goal branch,
  the predecessor walk in `extractPath`) are given explicit fuel and return
  `Option`; `none` means the fuel elapsed or undefined behaviour was reached.
  Reading the minimum of an empty open list (the final return of
  `processState` when the processing step emptied the list) is undefined
  behaviour in the source and is modelled as `none`.
* `grid2Index`, `index2Grid`, `lethal_cost_ * factor_`, `INF` and
  `SIM_DISTANCE` live in the external base class / header that is out of
  scope of the spec and absent from the sources; they are modelled from the
  spec (linear row-major index conversion, a configured lethal threshold, an
  absorbing infinity, a bounded lookahead parameter).
-/

namespace DStarModel

/-- Exact model of the `double` values produced by the planner: `val a b`
denotes the real number `a + b·√2`, and `inf` models the `INF` sentinel.
Modelled from the spec: `INF` is defined in the external header; the spec
describes it as the sentinel for unknown cost, so it is modelled as an
absorbing infinity. -/
inductive DVal where
  | val : Int → Int → DVal
  | inf : DVal
deriving DecidableEq, Repr

namespace DVal

/-- Boolean comparison deciding `a + b·√2 ≤ c + d·√2` by integer
arithmetic (squaring out the irrational part). -/
def leB : DVal → DVal → Bool
  | val a b, val c d =>
    let p := c - a
    let q := b - d
    if 0 ≤ q then decide (0 ≤ p) && decide (2 * q ^ 2 ≤ p ^ 2)
    else decide (0 ≤ p) || decide (p ^ 2 ≤ 2 * q ^ 2)
  | val _ _, inf => true
  | inf, val _ _ => false
  | inf, inf => true

/-- Strict comparison, modelling `<` on `double`. -/
def ltB (x y : DVal) : Bool := !(leB y x)

/-- Addition, with `inf` absorbing. -/
def add : DVal → DVal → DVal
  | val a b, val c d => val (a + c) (b + d)
  | _, _ => inf

/-- Model of `std::min` on `double`. -/
def minB (x y : DVal) : DVal := if leB x y then x else y

/-- Real value of an integer pair. -/
noncomputable def vR (a b : Int) : ℝ := (a : ℝ) + (b : ℝ) * Real.sqrt 2

/-- Interpretation of a `DVal` in the extended reals. -/
noncomputable def toE : DVal → EReal
  | val a b => ((vR a b : ℝ) : EReal)
  | inf => ⊤

end DVal


/-- Node processing tag, from the `NEW` / `OPEN` / `CLOSED` constants of the
planner. -/
inductive Tag where
  | NEW : Tag
  | OPEN : Tag
  | CLOSED : Tag
deriving DecidableEq, Repr

/-- Grid coordinates. -/
abbrev Coord := Int × Int

/-- Model of `DNode`: coordinates, cost to goal, priority key `k`, linear
index `id`, parent index `pid`, and tag. -/
structure DNode where
  x : Int
  y : Int
  cost : DVal
  k : DVal
  id : Int
  pid : Int
  tag : Tag
deriving DecidableEq, Repr

/-- Linear index of a coordinate.  Modelled from the spec: the conversion
lives in the external grid-geometry base class; a row-major layout
`x + nx * y` is used, which is all the planner requires (injectivity on the
grid plus inversion by `index2Grid`). -/
def grid2Index (nx : Int) (c : Coord) : Int := c.1 + nx * c.2

/-- Inverse conversion.  Modelled from the spec (external collaborator).  All
indices passed to it in reachable executions are nonnegative with `nx > 0`,
where every integer-division convention agrees with the C++ one. -/
def index2Grid (nx : Int) (i : Int) : Coord := (i % nx, i / nx)

/-- Node state created by `initMap`: `DNode(i, j, INF, INF, grid2Index(i,j),
-1, NEW, INF)`.  The model extends it to every integer coordinate; see the
header comment on the off-by-one determinization. -/
def defaultNode (nx : Int) (c : Coord) : DNode :=
  { x := c.1, y := c.2, cost := DVal.inf, k := DVal.inf,
    id := grid2Index nx c, pid := -1, tag := Tag.NEW }

/-- Model of `initMap`. -/
def initMap (nx : Int) : Coord → DNode := fun c => defaultNode nx c

/-- Sentinel for the initial `goal_` (the constructor sets
`goal_.x = goal_.y = INF`, so the first `plan` call never matches it). -/
def noGoal : Coord := (2147483647, 2147483647)

/-- The planner state: grid geometry, lethal threshold (modelling the product
`lethal_cost_ * factor_` of the external base class), the copied cost map
`global_costmap_`, the node grid `map_`, the open list, the cached path and
the stored goal. -/
structure DState where
  nx : Int
  ny : Int
  lethalThr : Int
  costmap : Int → Int
  map : Coord → DNode
  openList : List (DVal × Coord)
  path : List Coord
  goal : Coord

/-- Initial planner state, as built by the `DStar` constructor (the cost map
content before the first `memcpy` is unspecified; `plan` overwrites it). -/
def mkState (nx ny thr : Int) (cm : Int → Int) : DState :=
  { nx := nx, ny := ny, lethalThr := thr, costmap := cm, map := initMap nx,
    openList := [], path := [], goal := noGoal }

/-- Model of `reset`: clear the open list and rebuild every node. -/
def reset (st : DState) : DState :=
  { st with openList := [], map := initMap st.nx }

/-- Point update of one node of the grid. -/
def updNode (st : DState) (c : Coord) (f : DNode → DNode) : DState :=
  { st with map := fun q => if q = c then f (st.map c) else st.map q }

/-- Ordered insertion into the open list.  `std::multimap::insert` places an
entry with a duplicate key after all existing entries with that key, which is
what inserting before the first strictly greater key does. -/
def olInsert (e : DVal × Coord) : List (DVal × Coord) → List (DVal × Coord)
  | [] => [e]
  | h :: t => if DVal.leB h.1 e.1 then h :: olInsert e t else e :: h :: t

/-- Key computed by `DStar::insert` for a node, by the tag rule of the
source: `h_new` when NEW, `min(k, h_new)` when OPEN, `min(cost, h_new)` when
CLOSED. -/
def knewOf (st : DState) (c : Coord) (h : DVal) : DVal :=
  match (st.map c).tag with
  | Tag.NEW => h
  | Tag.OPEN => DVal.minB (st.map c).k h
  | Tag.CLOSED => DVal.minB (st.map c).cost h

/-- Model of `DStar::insert(node, h_new)`. -/
def insert (st : DState) (c : Coord) (h : DVal) : DState :=
  let st1 := updNode st c
    (fun m => { m with k := knewOf st c h, cost := h, tag := Tag.OPEN })
  { st1 with openList := olInsert (knewOf st c h, c) st1.openList }

/-- Model of `DStar::isCollision`: either endpoint has grid cost above the
lethal threshold. -/
def isCollision (st : DState) (c1 c2 : Coord) : Bool :=
  decide (st.lethalThr < st.costmap (st.map c1).id) ||
    decide (st.lethalThr < st.costmap (st.map c2).id)

/-- Offsets enumerated by the two nested loops of `getNeighbours`, in source
order (`i` outer from -1 to 1, `j` inner, skipping `(0,0)`). -/
def neighbourOffsets : List (Int × Int) :=
  [(-1,-1),(-1,0),(-1,1),(0,-1),(0,1),(1,-1),(1,0),(1,1)]

/-- Candidate cells that pass the bounds check of `getNeighbours` and whose
node is therefore read from `map_`.  The source checks `x_n > nx_` instead of
`x_n >= nx_` (and likewise for `y`), so `x_n = nx_` and `y_n = ny_` pass. -/
def boundsPass (st : DState) (c : Coord) : List Coord :=
  let n := st.map c
  (neighbourOffsets.map (fun o => (n.x + o.1, n.y + o.2))).filter
    (fun p => !(decide (p.1 < 0) || decide (p.1 > st.nx) ||
      decide (p.2 < 0) || decide (p.2 > st.ny)))

/-- Model of `DStar::getNeighbours`: bounds-passing candidates that are not
in collision with the node being expanded. -/
def getNeighbours (st : DState) (c : Coord) : List Coord :=
  (boundsPass st c).filter (fun p => !(isCollision st c p))

/-- Model of `DStar::getCost`: `INF` on collision, else the Euclidean
distance `hypot(dx, dy)`.  All call sites pass 8-adjacent pairs, for which
the distance is exactly 0, 1 or √2; the final `inf` branch is a placeholder
for distances the planner never computes. -/
def getCost (st : DState) (c1 c2 : Coord) : DVal :=
  if isCollision st c1 c2 then DVal.inf
  else
    let dx := (st.map c1).x - (st.map c2).x
    let dy := (st.map c1).y - (st.map c2).y
    if dx = 0 ∧ dy = 0 then DVal.val 0 0
    else if dx.natAbs ≤ 1 ∧ dy.natAbs ≤ 1 then
      if dx ≠ 0 ∧ dy ≠ 0 then DVal.val 0 1 else DVal.val 1 0
    else DVal.inf

/-- RAISE adoption step of `processState` (executed when `k_old < x->cost`):
sequentially, for each neighbour `y` with `y->cost <= k_old` and
`x->cost > y->cost + getCost(y, x)`, set `x->pid := y->id` and
`x->cost := y->cost + getCost(y, x)`. -/
def raiseProp (st : DState) (xc : Coord) (kOld : DVal) : List Coord → DState
  | [] => st
  | yc :: rest =>
    let x := st.map xc
    let y := st.map yc
    let c := getCost st yc xc
    let st1 :=
      if DVal.leB y.cost kOld && DVal.ltB (DVal.add y.cost c) x.cost then
        updNode st xc (fun m => { m with pid := y.id, cost := DVal.add y.cost c })
      else st
    raiseProp st1 xc kOld rest

/-- LOWER branch of `processState` (executed when `k_old == x->cost`). -/
def lowerFold (st : DState) (xc : Coord) : List Coord → DState
  | [] => st
  | yc :: rest =>
    let x := st.map xc
    let y := st.map yc
    let h := DVal.add x.cost (getCost st xc yc)
    let st1 :=
      if y.tag = Tag.NEW ∨ (y.pid = x.id ∧ y.cost ≠ h) ∨
          (y.pid ≠ x.id ∧ DVal.ltB h y.cost = true) then
        insert (updNode st yc (fun m => { m with pid := x.id })) yc h
      else st
    lowerFold st1 xc rest

/-- RAISE branch of `processState` (executed when `k_old != x->cost` after
the adoption step). -/
def elseFold (st : DState) (xc : Coord) (kOld : DVal) : List Coord → DState
  | [] => st
  | yc :: rest =>
    let x := st.map xc
    let y := st.map yc
    let h := DVal.add x.cost (getCost st xc yc)
    let st1 :=
      if y.tag = Tag.NEW ∨ (y.pid = x.id ∧ y.cost ≠ h) then
        insert (updNode st yc (fun m => { m with pid := x.id })) yc h
      else if y.pid ≠ x.id ∧ DVal.ltB h y.cost = true then
        insert st xc x.cost
      else if y.pid ≠ x.id ∧
          DVal.ltB (DVal.add y.cost (getCost st yc xc)) x.cost = true ∧
          y.tag = Tag.CLOSED ∧ DVal.ltB kOld y.cost = true then
        insert st yc y.cost
      else st
    elseFold st1 xc kOld rest

/-- Model of `DStar::processState`.  Returns the successor state and the
returned `double`: `some (-1)` when the open list is empty on entry, `none`
when the final `open_list_.begin()->first` reads from an emptied list
(undefined behaviour in the source), and otherwise the new minimum key. -/
def processState (st : DState) : DState × Option DVal :=
  match st.openList with
  | [] => (st, some (DVal.val (-1) 0))
  | (kOld, xc) :: rest =>
    let st1 := updNode { st with openList := rest } xc (fun m => { m with tag := Tag.CLOSED })
    let nbrs := getNeighbours st1 xc
    let st2 := if DVal.ltB kOld (st1.map xc).cost then raiseProp st1 xc kOld nbrs else st1
    let st3 := if kOld = (st2.map xc).cost then lowerFold st2 xc nbrs
      else elseFold st2 xc kOld nbrs
    (st3, st3.openList.head?.map Prod.fst)

/-- State part of one `processState` call. -/
def stepSt (st : DState) : DState := (processState st).1

/-- Iterated `processState` (state part). -/
def iterN : ℕ → DState → DState
  | 0, st => st
  | n + 1, st => stepSt (iterN n st)

/-- The fresh-goal search loop of `plan`: `while(1) { processState(); if
(start_ptr->tag == CLOSED) break; }`, with fuel; `none` means the fuel
elapsed without the start node being closed. -/
def freshLoop (st : DState) (s : Coord) : ℕ → Option DState
  | 0 => none
  | n + 1 =>
    let st1 := stepSt st
    if (st1.map s).tag = Tag.CLOSED then some st1 else freshLoop st1 s n

/-- Accumulation loop of `extractPath`: follow `pid` links from `c`, pushing
each visited node, until a node whose coordinates equal `g` is reached (the
node equal to `g` itself is not pushed). -/
def pathAcc (st : DState) (g : Coord) : Coord → ℕ → Option (List Coord)
  | _, 0 => none
  | c, n + 1 =>
    if (st.map c).x = g.1 ∧ (st.map c).y = g.2 then some []
    else (pathAcc st g (index2Grid st.nx (st.map c).pid) n).map (fun l => c :: l)

/-- Model of `DStar::extractPath`: accumulate along predecessor links, then
`std::reverse`. -/
def extractPath (st : DState) (s g : Coord) (fuel : ℕ) : Option (List Coord) :=
  (pathAcc st g s fuel).map List.reverse

/-- Model of `DStar::extractExpand`: scan the real grid in row-major source
order and collect the CLOSED nodes. -/
def extractExpand (st : DState) : List Coord :=
  ((List.range st.nx.toNat).map (fun i =>
    (List.range st.ny.toNat).filterMap (fun j =>
      let c : Coord := ((i : Int), (j : Int))
      if (st.map c).tag = Tag.CLOSED then some c else none))).flatten

/-- Largest `k ≤ bound` with `k * k ≤ n` (downward search; structural
recursion so that the kernel can evaluate it). -/
def isqrtDown (n : ℕ) : ℕ → ℕ
  | 0 => 0
  | k + 1 => if (k + 1) * (k + 1) ≤ n then k + 1 else isqrtDown n k

/-- Floor square root by downward search. -/
def isqrt (n : ℕ) : ℕ := isqrtDown n n

/-- Truncated-to-int Euclidean distance, modelling
`int dis = std::hypot(dx, dy)` (truncating a nonnegative `double` to `int`
is the floor square root of the squared distance). -/
def idist (a b : Coord) : Int :=
  Int.ofNat (isqrt (((a.1 - b.1) ^ 2 + (a.2 - b.2) ^ 2).toNat))

/-- Argmin loop of `getState` (strict improvement, so the earliest minimum
wins ties). -/
def argminLoop (cur : Coord) : List Coord → Coord → Int → Coord
  | [], best, _ => best
  | p :: t, best, dmin =>
    if idist p cur < dmin then argminLoop cur t p (idist p cur)
    else argminLoop cur t best dmin

/-- Model of `DStar::getState`: the path point closest to `cur`.  Reading
`path_[0]` of an empty path is undefined behaviour, modelled as `none`. -/
def getState (st : DState) (cur : Coord) : Option Coord :=
  match st.path with
  | [] => none
  | p0 :: rest => some (argminLoop cur rest p0 (idist p0 cur))

/-- Repair loop of `modify`: `while(1) { k_min = processState(); if (k_min >=
x->cost) break; }`, with fuel.  A `none` return of `processState` (the
undefined read of an emptied open list) aborts with `none`; `none` is also
returned when the fuel elapses. -/
def modifyLoop (st : DState) (xc : Coord) : ℕ → Option DState
  | 0 => none
  | n + 1 =>
    let st1 := (processState st).1
    match (processState st).2 with
    | none => none
    | some k =>
      if DVal.leB (st1.map xc).cost k then some st1 else modifyLoop st1 xc n

/-- Model of `DStar::modify`. -/
def modify (st : DState) (xc yc : Coord) (fuel : ℕ) : Option DState :=
  let st1 :=
    if (st.map xc).tag = Tag.CLOSED then
      insert st xc (DVal.add (st.map yc).cost (getCost st xc yc))
    else st
  modifyLoop st1 xc fuel

/-- Forward walk of the same-goal branch of `plan`: up to `SIM_DISTANCE`
steps along predecessor links, breaking at the goal sentinel, calling
`modify` on the first colliding edge and staying in place (`continue`
advances the loop counter but not `x`). -/
def walk (st : DState) (xc : Coord) (mfuel : ℕ) : ℕ → Option (DState × Coord)
  | 0 => some (st, xc)
  | n + 1 =>
    if (st.map xc).pid = -1 then some (st, xc)
    else
      let yc := index2Grid st.nx (st.map xc).pid
      if isCollision st xc yc then
        match modify st xc yc mfuel with
        | none => none
        | some st1 => walk st1 xc mfuel n
      else walk st yc mfuel n

/-- Model of `DStar::plan`.  `sim` models the external `SIM_DISTANCE`
constant, `mfuel` the fuel of each `modify` loop and `pfuel` the fuel of the
fresh-goal loop and of `extractPath`.  The source returns `{true, path_}` on
every terminating execution path; the `found` component of the result is
that literal. -/
def plan (st0 : DState) (cm : Int → Int) (s g : Coord) (sim mfuel pfuel : ℕ) :
    Option (DState × Bool × List Coord × List Coord) :=
  let stm := { st0 with costmap := cm }
  if stm.goal ≠ g then
    let str := reset stm
    let stg := { str with goal := g }
    let sti := insert stg g (DVal.val 0 0)
    match freshLoop sti s pfuel with
    | none => none
    | some st1 =>
      match extractPath st1 s g pfuel with
      | none => none
      | some p =>
        let st2 := { st1 with path := p }
        some (st2, true, p, extractExpand st2)
  else
    match getState stm s with
    | none => none
    | some state =>
      match walk stm state mfuel sim with
      | none => none
      | some (st1, _) =>
        match extractPath st1 state g pfuel with
        | none => none
        | some p =>
          let st2 := { st1 with path := p }
          some (st2, true, p, extractExpand st2)

/-- Path component of a `plan` result. -/
def planPath (r : Option (DState × Bool × List Coord × List Coord)) :
    Option (List Coord) := r.map (fun t => t.2.2.1)

/-- Found flag of a `plan` result. -/
def planFound (r : Option (DState × Bool × List Coord × List Coord)) :
    Option Bool := r.map (fun t => t.2.1)

/-- Expansion set of a `plan` result. -/
def planExpand (r : Option (DState × Bool × List Coord × List Coord)) :
    Option (List Coord) := r.map (fun t => t.2.2.2)

/-- State component of a `plan` result, with a default. -/
def planState (r : Option (DState × Bool × List Coord × List Coord))
    (dflt : DState) : DState :=
  match r with
  | some t => t.1
  | none => dflt

/-- Coordinates inside the real grid. -/
abbrev inBounds (nx ny : Int) (c : Coord) : Prop :=
  0 ≤ c.1 ∧ c.1 < nx ∧ 0 ≤ c.2 ∧ c.2 < ny

/-- Coordinates inside the extended grid reached through the off-by-one
bounds check (`x_n ≤ nx` and `y_n ≤ ny`). -/
abbrev inExt (nx ny : Int) (c : Coord) : Prop :=
  0 ≤ c.1 ∧ c.1 ≤ nx ∧ 0 ≤ c.2 ∧ c.2 ≤ ny

/-- Stop condition of the `extractPath` loop: the node at `c` carries the
coordinates of `g`. -/
abbrev atGoal (st : DState) (c g : Coord) : Prop :=
  (st.map c).x = g.1 ∧ (st.map c).y = g.2

/-- The open list keys are in nondecreasing order. -/
abbrev keysSorted (l : List (DVal × Coord)) : Prop :=
  l.Pairwise (fun a b => DVal.leB a.1 b.1 = true)

/-- Key that the next `processState` call will pop (the head of the open
list), after `j` calls from `st`. -/
def popKeyAt (st : DState) (j : ℕ) : Option DVal :=
  ((iterN j st).openList.head?).map Prod.fst

/-- Scenario cost maps: grid cost 0 on the listed free cells and 255
(lethal, above every scenario threshold) everywhere else, including every
index outside the real array. -/
def cmOf (nx : Int) (free : List Coord) : Int → Int :=
  fun i => if (free.map (grid2Index nx)).contains i then 0 else 255

/-- Fresh 3×3 planner (threshold 200 models `lethal_cost_ * factor_`). -/
def grid33 : DState := mkState 3 3 200 (fun _ => 0)

/-- Fresh 2×1 planner. -/
def grid21 : DState := mkState 2 1 200 (fun _ => 0)

/-- Fresh 2×2 planner whose cost map is all zeros (any junk values would do;
claim C5 is about the bounds check alone). -/
def c5St : DState := mkState 2 2 200 (fun _ => 0)

/-- C1 scenario: on the 3×3 grid the free cells are the start `(0,0)` and
the right column `(2,0),(2,1),(2,2)`; the lethal middle column disconnects
the start from the goal `(2,2)`. -/
def c1Cm : Int → Int := cmOf 3 [(0,0),(2,0),(2,1),(2,2)]

/-- State of the fresh-goal loop entry for the C1 scenario, built exactly as
the fresh branch of `plan` builds it: copy the cost map, `reset`, store the
goal, insert the goal with cost 0. -/
def c1Start : DState :=
  insert { (reset { grid33 with costmap := c1Cm }) with goal := (2,2) }
    (2,2) (DVal.val 0 0)

/-- A 1×1 planner state with an empty open list. -/
def c3EmptySt : DState := mkState 1 1 200 (fun _ => 0)

/-- Diagonal 3×3 scenario (claims C2 and C9): free cells `(0,0)`, `(1,1)`,
`(2,2)`; start `(0,0)`, goal `(2,2)`. -/
def diagCm : Int → Int := cmOf 3 [(0,0),(1,1),(2,2)]

/-- Result of the fresh-goal `plan` call of the diagonal scenario. -/
def diagPlan : Option (DState × Bool × List Coord × List Coord) :=
  plan grid33 diagCm (0,0) (2,2) 0 0 20

/-- Planner state after the fresh-goal call of the diagonal scenario. -/
def diagStA : DState := planState diagPlan grid33

/-- Diagonal-scenario state at the start of a second same-goal call (the
cost map is copied again). -/
def diagStB : DState := { diagStA with costmap := diagCm }

/-- C4 scenario, first call: 2×1 grid, both cells free, start `(0,0)`,
goal `(1,0)`. -/
def c4Cm1 : Int → Int := cmOf 2 [(0,0),(1,0)]

/-- C4 scenario, second call: the goal cell `(1,0)` has become lethal,
disconnecting the region. -/
def c4Cm2 : Int → Int := cmOf 2 [(0,0)]

/-- Planner state after the first C4 call. -/
def c4StA : DState := planState (plan grid21 c4Cm1 (0,0) (1,0) 0 0 20) grid21

/-- C4 state after the second call has copied the new cost map; the
same-goal walk then finds the edge `(0,0) → (1,0)` colliding and calls
`modify` on it. -/
def c4StB : DState := { c4StA with costmap := c4Cm2 }

/-- C6 scenario, first call: free cells `(0,0)`, `(1,1)`, `(1,2)`, `(2,0)`,
`(2,1)`; start `(2,0)`, goal `(0,0)`. -/
def c6Cm1 : Int → Int := cmOf 3 [(0,0),(1,1),(1,2),(2,0),(2,1)]

/-- C6 scenario, second call: the path cell `(1,1)` has become lethal and
the cell `(1,0)` has been freed. -/
def c6Cm2 : Int → Int := cmOf 3 [(0,0),(1,0),(1,2),(2,0),(2,1)]

/-- Planner state after the first C6 call. -/
def c6StA : DState := planState (plan grid33 c6Cm1 (2,0) (0,0) 0 0 20) grid33

/-- C6 state at the start of the second call (new cost map copied).  The
walk starts at `getState` = `(2,0)` and finds the edge to `(1,1)`
colliding. -/
def c6StB : DState := { c6StA with costmap := c6Cm2 }

/-- C6 state after the first `modify` call of the walk, on edge
`(2,0) → (1,1)`. -/
def c6StC : DState := (modify c6StB (2,0) (1,1) 10).getD grid33

/-- C6 state after the second `modify` call, on edge `(2,1) → (1,1)` (the
walk advanced from `(2,0)` to `(2,1)` over the repaired, collision-free
edge). -/
def c6StD : DState := (modify c6StC (2,1) (1,1) 10).getD grid33

/-- C6 state at the start of the loop of the third `modify` call, on edge
`(1,2) → (1,1)`: `(1,2)` is CLOSED, so `modify` reinserts it with cost
`(1,1).cost + getCost((1,2),(1,1))` before entering its loop. -/
def c6StM : DState :=
  insert c6StD (1,2)
    (DVal.add ((c6StD.map (1,1)).cost) (getCost c6StD (1,2) (1,1)))

/-- Invariant of the fresh-goal backward search, established when the goal
node is inserted with cost 0 and preserved by every `processState` call:
the goal node keeps cost 0, predecessor sentinel -1 and a non-NEW tag; all
node costs and keys are nonnegative; all open-list keys are nonnegative and
all open-list coordinates lie in the extended grid; and every
extended-grid node carries a nonnegative linear index. -/
structure GoalInv (g : Coord) (st : DState) : Prop where
  nxNonneg : 0 ≤ st.nx
  nyNonneg : 0 ≤ st.ny
  goalCost : (st.map g).cost = DVal.val 0 0
  goalPid : (st.map g).pid = -1
  goalTag : (st.map g).tag ≠ Tag.NEW
  costNonneg : ∀ c, DVal.leB (DVal.val 0 0) (st.map c).cost = true
  kNonneg : ∀ c, DVal.leB (DVal.val 0 0) (st.map c).k = true
  keysNonneg : ∀ e ∈ st.openList, DVal.leB (DVal.val 0 0) e.1 = true
  coordsExt : ∀ e ∈ st.openList, inExt st.nx st.ny e.2
  idNonneg : ∀ c, inExt st.nx st.ny c → 0 ≤ (st.map c).id

/-! Order and arithmetic facts about `DVal`, bridged through the real
value interpretation. -/

namespace DVal

theorem sqrt2_le_iff (q p : Int) :
    (q : ℝ) * Real.sqrt 2 ≤ (p : ℝ) ↔
      (if 0 ≤ q then 0 ≤ p ∧ 2 * q ^ 2 ≤ p ^ 2 else (0 ≤ p ∨ p ^ 2 ≤ 2 * q ^ 2)) := by
  have hs : Real.sqrt 2 ^ 2 = 2 := Real.sq_sqrt (by norm_num)
  have hs0 : (0 : ℝ) < Real.sqrt 2 := Real.sqrt_pos.mpr (by norm_num)
  by_cases hq : 0 ≤ q
  · have hq' : (0 : ℝ) ≤ (q : ℝ) := by exact_mod_cast hq
    simp only [if_pos hq]
    constructor
    · intro h
      have hp : (0 : ℝ) ≤ (p : ℝ) := le_trans (by positivity) h
      have h2 : 2 * (q : ℝ) ^ 2 ≤ (p : ℝ) ^ 2 := by
        nlinarith [mul_nonneg hq' hs0.le]
      constructor
      · exact_mod_cast hp
      · exact_mod_cast h2
    · rintro ⟨hp, h2⟩
      have hp' : (0 : ℝ) ≤ (p : ℝ) := by exact_mod_cast hp
      have h2' : 2 * (q : ℝ) ^ 2 ≤ (p : ℝ) ^ 2 := by exact_mod_cast h2
      nlinarith [mul_nonneg hq' hs0.le]
  · have hq' : (q : ℝ) < 0 := by
      have : q < 0 := lt_of_not_ge hq
      exact_mod_cast this
    simp only [if_neg hq]
    constructor
    · intro h
      by_cases hp : 0 ≤ p
      · exact Or.inl hp
      · have hp' : (p : ℝ) < 0 := by
          have : p < 0 := lt_of_not_ge hp
          exact_mod_cast this
        have h2 : (p : ℝ) ^ 2 ≤ 2 * (q : ℝ) ^ 2 := by
          nlinarith [mul_neg_of_neg_of_pos hq' hs0]
        exact Or.inr (by exact_mod_cast h2)
    · rintro (hp | h2)
      · have hp' : (0 : ℝ) ≤ (p : ℝ) := by exact_mod_cast hp
        have : (q : ℝ) * Real.sqrt 2 < 0 := mul_neg_of_neg_of_pos hq' hs0
        linarith
      · have h2' : (p : ℝ) ^ 2 ≤ 2 * (q : ℝ) ^ 2 := by exact_mod_cast h2
        nlinarith [mul_neg_of_neg_of_pos hq' hs0]

theorem leB_val_iff {a b c d : Int} :
    leB (val a b) (val c d) = true ↔ vR a b ≤ vR c d := by
  have h := sqrt2_le_iff (b - d) (c - a)
  constructor
  · intro hle
    have : (if 0 ≤ b - d then 0 ≤ c - a ∧ 2 * (b - d) ^ 2 ≤ (c - a) ^ 2
        else (0 ≤ c - a ∨ (c - a) ^ 2 ≤ 2 * (b - d) ^ 2)) := by
      by_cases hq : 0 ≤ b - d <;> simp [leB, hq] at hle <;> simpa [hq] using hle
    have h2 : ((b : ℝ) - d) * Real.sqrt 2 ≤ ((c : ℝ) - a) := by
      have := h.mpr this
      push_cast at this ⊢
      linarith
    unfold vR
    nlinarith [h2]
  · intro hle
    have h2 : ((b - d : Int) : ℝ) * Real.sqrt 2 ≤ ((c - a : Int) : ℝ) := by
      unfold vR at hle
      push_cast
      nlinarith [hle]
    have := h.mp h2
    by_cases hq : 0 ≤ b - d <;> simp [hq] at this <;> simp [leB, hq, this]

theorem leB_iff {x y : DVal} : leB x y = true ↔ toE x ≤ toE y := by
  cases x with
  | val a b =>
    cases y with
    | val c d =>
      rw [leB_val_iff]
      exact (EReal.coe_le_coe_iff).symm
    | inf => simp [leB, toE, le_top]
  | inf =>
    cases y with
    | val c d =>
      simp only [leB, toE]
      constructor
      · intro h
        exact absurd h (by simp)
      · intro h
        exact absurd (top_le_iff.mp h) (EReal.coe_ne_top _)
    | inf => simp [leB, toE]

theorem ltB_iff {x y : DVal} : ltB x y = true ↔ toE x < toE y := by
  unfold ltB
  rw [Bool.not_eq_true', ← Bool.not_eq_true, not_iff_comm, leB_iff, not_lt]

theorem leB_refl (x : DVal) : leB x x = true := leB_iff.mpr le_rfl

theorem leB_trans {x y z : DVal} (h1 : leB x y = true) (h2 : leB y z = true) :
    leB x z = true :=
  leB_iff.mpr (le_trans (leB_iff.mp h1) (leB_iff.mp h2))

theorem leB_of_not_leB {x y : DVal} (h : ¬ leB x y = true) : leB y x = true :=
  leB_iff.mpr (le_of_not_le (fun hc => h (leB_iff.mpr hc)))

theorem toE_add (x y : DVal) : toE (add x y) = toE x + toE y := by
  cases x with
  | val a b =>
    cases y with
    | val c d =>
      simp only [add, toE]
      rw [← EReal.coe_add]
      have : vR (a + c) (b + d) = vR a b + vR c d := by
        unfold vR
        push_cast
        ring
      rw [this]
    | inf => simp [add, toE]
  | inf =>
    cases y with
    | val c d => simp [add, toE]
    | inf => simp [add, toE]

theorem toE_zero : toE (val 0 0) = 0 := by
  simp [toE, vR]

theorem zero_leB_add {x y : DVal} (hx : leB (val 0 0) x = true)
    (hy : leB (val 0 0) y = true) : leB (val 0 0) (add x y) = true := by
  rw [leB_iff, toE_zero] at hx hy ⊢
  rw [toE_add]
  exact add_nonneg hx hy

theorem zero_leB_minB {x y : DVal} (hx : leB (val 0 0) x = true)
    (hy : leB (val 0 0) y = true) : leB (val 0 0) (minB x y) = true := by
  unfold minB
  split <;> assumption

theorem not_ltB_zero {x : DVal} (hx : leB (val 0 0) x = true) :
    ¬ ltB x (val 0 0) = true := by
  intro h
  rw [ltB_iff, toE_zero] at h
  rw [leB_iff, toE_zero] at hx
  exact absurd hx (not_le_of_lt h)

end DVal


/-! Iteration helpers. -/

theorem stepSt_of_empty {st : DState} (h : st.openList = []) : stepSt st = st := by
  unfold stepSt processState
  rw [h]

theorem iterN_succ_shift (n : ℕ) (st : DState) :
    iterN (n + 1) st = iterN n (stepSt st) := by
  induction n with
  | zero => rfl
  | succ m ih =>
    show stepSt (iterN (m + 1) st) = stepSt (iterN m (stepSt st))
    rw [ih]

theorem c1_openList_empty_at_3 : (iterN 3 c1Start).openList = [] := by decide

theorem c1_stable (m : ℕ) : iterN (3 + m) c1Start = iterN 3 c1Start := by
  induction m with
  | zero => rfl
  | succ k ih =>
    show stepSt (iterN (3 + k) c1Start) = iterN 3 c1Start
    rw [ih]
    exact stepSt_of_empty c1_openList_empty_at_3

theorem freshLoop_none_of_never_closed {st : DState} {s : Coord}
    (h : ∀ n : ℕ, ((iterN n st).map s).tag ≠ Tag.CLOSED) :
    ∀ fuel : ℕ, freshLoop st s fuel = none := by
  intro fuel
  induction fuel generalizing st with
  | zero => rfl
  | succ n ih =>
    show (if ((stepSt st).map s).tag = Tag.CLOSED then some (stepSt st)
      else freshLoop (stepSt st) s n) = none
    rw [if_neg (show ¬ ((stepSt st).map s).tag = Tag.CLOSED from h 1)]
    exact ih (fun n2 => by
      have h2 := h (n2 + 1)
      rwa [iterN_succ_shift] at h2)

/-- C1: on a cost grid where start and goal are disconnected (3×3 grid, free
cells `(0,0)` and the right column, goal `(2,2)`), the fresh-goal search
loop of `plan` never closes the start node — the `while(1)` loop of the
source runs forever (the model, which gives the loop fuel, returns `none`
for every fuel) — and `plan` never returns `found = false` with an empty
path, contrary to the claim: the source has no open-list-exhaustion check
and its only fresh-branch return is `{true, path_}`. -/
theorem c1_disconnected_plan_never_terminates :
    (∀ n : ℕ, ((iterN n c1Start).map (0,0)).tag ≠ Tag.CLOSED) ∧
    (∀ sim mfuel pfuel : ℕ,
      plan grid33 c1Cm (0,0) (2,2) sim mfuel pfuel = none) := by
  have hstep : ∀ n : ℕ, ((iterN n c1Start).map (0,0)).tag ≠ Tag.CLOSED := by
    intro n
    match n with
    | 0 => decide
    | 1 => decide
    | 2 => decide
    | (m + 3) =>
      have h3 : iterN (m + 3) c1Start = iterN 3 c1Start := by
        rw [Nat.add_comm m 3]
        exact c1_stable m
      rw [h3]
      decide
  refine ⟨hstep, ?_⟩
  intro sim mfuel pfuel
  have hf := freshLoop_none_of_never_closed hstep pfuel
  simp only [plan]
  rw [if_pos (by decide)]
  rw [show (insert { (reset { grid33 with costmap := c1Cm }) with goal := ((2:Int),(2:Int)) }
      ((2:Int),(2:Int)) (DVal.val 0 0)) = c1Start from rfl]
  rw [hf]

/-- C3: `processState` returns `-1` when the open list is empty on entry and
leaves the state unchanged; but when the processing step empties the list,
the final `return open_list_.begin()->first` reads the minimum of an empty
multimap — undefined behaviour, modelled as `none` — instead of returning
`-1` as the claim states.  The failing state is reached by two
`processState` calls of the C1 scenario: its open list still holds one
entry, and the call that pops it inserts nothing. -/
theorem c3_empty_open_list_read :
    ((processState c3EmptySt).2 = some (DVal.val (-1) 0) ∧
      (processState c3EmptySt).1 = c3EmptySt) ∧
    ((iterN 2 c1Start).openList ≠ [] ∧
      (processState (iterN 2 c1Start)).2 = none) := by
  exact ⟨⟨rfl, rfl⟩, ⟨by decide, by decide⟩⟩

/-- C4: `modify` reinserts a CLOSED node and then loops on `processState`
until the returned key is at least the node cost; on a grid where the new
obstacle disconnects the region (2×1 grid whose goal cell became lethal),
the open list is exhausted and the loop never terminates: the call that
empties the list performs the undefined empty-list read (modelled `none`),
and every later call would return `-1`, which never satisfies
`k_min >= x->cost`; the model therefore returns `none` at every fuel.  The
first four conjuncts show the failing call is the one the same-goal walk of
`plan` performs. -/
theorem c4_modify_exhaustion_never_detected :
    planPath (plan grid21 c4Cm1 (0,0) (1,0) 0 0 20) = some [(0,0)] ∧
    (c4StB.map (0,0)).tag = Tag.CLOSED ∧
    index2Grid 2 ((c4StB.map (0,0)).pid) = (1,0) ∧
    isCollision c4StB (0,0) (1,0) = true ∧
    (∀ fuel : ℕ, modify c4StB (0,0) (1,0) fuel = none) := by
  refine ⟨by decide, by decide, by decide, by decide, ?_⟩
  intro fuel
  cases fuel with
  | zero => rfl
  | succ n => rfl

/-- C5: the neighbour bounds check of `getNeighbours` uses `x_n > nx_`
instead of `x_n >= nx_`, so on a 2×2 grid the cell `(2,1)` — one past the
grid in x — passes the bounds check for node `(1,1)` and its node is read
(`boundsPass` is exactly the set of candidates for which `map_[x_n][y_n]`
is dereferenced); with the junk cost read for that cell below the lethal
threshold it is even returned as a neighbour, contradicting the claim that
every enumerated neighbour satisfies `x_n < nx`. -/
theorem c5_bounds_check_off_by_one :
    ((2,1) ∈ boundsPass c5St (1,1) ∧ ¬ ((2:Int) < c5St.nx)) ∧
    (2,1) ∈ getNeighbours c5St (1,1) := by
  refine ⟨⟨?_, ?_⟩, ?_⟩ <;> decide

/-- C2 counterexample: on the diagonal 3×3 scenario the fresh-goal `plan`
call succeeds and returns the path `[(1,1), (0,0)]` — `extractPath`
accumulates `(0,0), (1,1)` from the start, never pushes the goal, and the
final `std::reverse` puts the pre-goal node first and the start last — so
the returned path neither begins with the start `(0,0)` nor ends with the
goal `(2,2)` as the claim states. -/
theorem c2_path_endpoints_counterexample :
    planFound diagPlan = some true ∧
    planPath diagPlan = some [(1,1),(0,0)] ∧
    ¬ ((planPath diagPlan).bind List.head? = some ((0:Int),(0:Int)) ∧
       (planPath diagPlan).bind List.getLast? = some ((2:Int),(2:Int))) := by
  refine ⟨by decide, by decide, by decide⟩

/-- C6 counterexample: a reachable single `processState` loop whose popped
keys decrease.  First call: fresh plan on `c6Cm1` from `(2,0)` to `(0,0)`,
path `[(1,1),(2,0)]`.  Second call (same goal, cost map `c6Cm2` in which
path cell `(1,1)` became lethal and `(1,0)` became free): the walk
re-localizes to `(2,0)` and repairs three colliding edges in turn; inside
the loop of the third `modify` call (state `c6StM`) the successive popped
keys are `1+√2`, `1+2√2`, `3+√2`, `1` — the fourth pop is smaller than the
third while the loop is still running (every returned minimum key is below
`x->cost`, which is `INF`), so the popped-key sequence of a single loop is
not non-decreasing. -/
theorem c6_popped_keys_not_monotone :
    planPath (plan grid33 c6Cm1 (2,0) (0,0) 0 0 20) = some [(1,1),(2,0)] ∧
    getState c6StB (2,0) = some (2,0) ∧
    (index2Grid 3 ((c6StB.map (2,0)).pid) = (1,1) ∧
      isCollision c6StB (2,0) (1,1) = true) ∧
    (modify c6StB (2,0) (1,1) 10).isSome = true ∧
    (index2Grid 3 ((c6StC.map (2,0)).pid) = (2,1) ∧
      isCollision c6StC (2,0) (2,1) = false) ∧
    (index2Grid 3 ((c6StC.map (2,1)).pid) = (1,1) ∧
      isCollision c6StC (2,1) (1,1) = true) ∧
    (modify c6StC (2,1) (1,1) 10).isSome = true ∧
    (index2Grid 3 ((c6StD.map (2,1)).pid) = (1,2) ∧
      isCollision c6StD (2,1) (1,2) = false) ∧
    (index2Grid 3 ((c6StD.map (1,2)).pid) = (1,1) ∧
      isCollision c6StD (1,2) (1,1) = true) ∧
    (c6StD.map (1,2)).tag = Tag.CLOSED ∧
    (popKeyAt c6StM 0 = some (DVal.val 1 1) ∧
      popKeyAt c6StM 1 = some (DVal.val 1 2) ∧
      popKeyAt c6StM 2 = some (DVal.val 3 1) ∧
      popKeyAt c6StM 3 = some (DVal.val 1 0)) ∧
    ((processState (iterN 0 c6StM)).2 = some (DVal.val 1 2) ∧
      DVal.ltB (DVal.val 1 2) ((iterN 1 c6StM).map (1,2)).cost = true) ∧
    ((processState (iterN 1 c6StM)).2 = some (DVal.val 3 1) ∧
      DVal.ltB (DVal.val 3 1) ((iterN 2 c6StM).map (1,2)).cost = true) ∧
    ((processState (iterN 2 c6StM)).2 = some (DVal.val 1 0) ∧
      DVal.ltB (DVal.val 1 0) ((iterN 3 c6StM).map (1,2)).cost = true) ∧
    DVal.ltB (DVal.val 1 0) (DVal.val 3 1) = true := by
  decide

/-- C9: the planner is a pure function of its state and inputs, so two runs
with equal states, cost maps and arguments return equal results; on the
diagonal 3×3 scenario a second `plan` call with the same goal and an
unmodified grid succeeds and returns exactly the path and expansion set of
the first call; and the same-goal walk of that second call leaves the
planner state unchanged for every lookahead window `sim` (the external
`SIM_DISTANCE`) and every `modify` fuel, so the second-call result does not
depend on them. -/
theorem c9_plan_deterministic :
    (∀ (st1 st2 : DState) (cm1 cm2 : Int → Int) (s g : Coord)
        (sim mfuel pfuel : ℕ), st1 = st2 → cm1 = cm2 →
        plan st1 cm1 s g sim mfuel pfuel = plan st2 cm2 s g sim mfuel pfuel) ∧
    (planPath (plan grid33 diagCm (0,0) (2,2) 5 10 20) = some [(1,1),(0,0)] ∧
      planExpand (plan grid33 diagCm (0,0) (2,2) 5 10 20) =
        some [(0,0),(1,1),(2,2)] ∧
      planFound (plan diagStA diagCm (0,0) (2,2) 5 10 20) = some true ∧
      planPath (plan diagStA diagCm (0,0) (2,2) 5 10 20) =
        some [(1,1),(0,0)] ∧
      planExpand (plan diagStA diagCm (0,0) (2,2) 5 10 20) =
        some [(0,0),(1,1),(2,2)]) ∧
    (∀ sim mfuel : ℕ,
      (walk diagStB (0,0) mfuel sim).map Prod.fst = some diagStB) := by
  refine ⟨?_, by decide, ?_⟩
  · intro st1 st2 cm1 cm2 s g sim mfuel pfuel h1 h2
    rw [h1, h2]
  · have h22 : ∀ sim mfuel : ℕ,
        walk diagStB (2,2) mfuel sim = some (diagStB, (2,2)) := by
      intro sim mfuel
      cases sim with
      | zero => rfl
      | succ m => rfl
    have h11 : ∀ sim mfuel : ℕ,
        walk diagStB (1,1) mfuel sim = some (diagStB, (2,2)) ∨
        walk diagStB (1,1) mfuel sim = some (diagStB, (1,1)) := by
      intro sim mfuel
      cases sim with
      | zero => exact Or.inr rfl
      | succ m =>
        refine Or.inl ?_
        show walk diagStB (2,2) mfuel m = some (diagStB, (2,2))
        exact h22 m mfuel
    intro sim mfuel
    cases sim with
    | zero => rfl
    | succ m =>
      show (walk diagStB (1,1) mfuel m).map Prod.fst = some diagStB
      rcases h11 m mfuel with h | h <;> rw [h] <;> rfl

/-! Additional order lemmas used by the step characterizations. -/

namespace DVal

theorem leB_of_ltB {x y : DVal} (h : ltB x y = true) : leB x y = true :=
  leB_iff.mpr (le_of_lt (ltB_iff.mp h))

theorem ltB_trans {x y z : DVal} (h1 : ltB x y = true) (h2 : ltB y z = true) :
    ltB x z = true :=
  ltB_iff.mpr (lt_trans (ltB_iff.mp h1) (ltB_iff.mp h2))

theorem ltB_of_ltB_of_leB {x y z : DVal} (h1 : ltB x y = true)
    (h2 : leB y z = true) : ltB x z = true :=
  ltB_iff.mpr (lt_of_lt_of_le (ltB_iff.mp h1) (leB_iff.mp h2))

theorem leB_of_not_ltB {x y : DVal} (h : ¬ ltB x y = true) : leB y x = true := by
  unfold ltB at h
  cases hb : leB y x with
  | false => rw [hb] at h; exact absurd rfl h
  | true => rfl

end DVal

/-! Open list insertion is a permutation-preserving placement. -/

theorem olInsert_perm (e : DVal × Coord) (l : List (DVal × Coord)) :
    (olInsert e l).Perm (e :: l) := by
  induction l with
  | nil => exact List.Perm.refl _
  | cons hd t ih =>
    unfold olInsert
    split
    · exact (ih.cons hd).trans (List.Perm.swap e hd t)
    · exact List.Perm.refl _

/-- C7: `insert(node, h_new)` computes the key by the tag rule of the claim
(`h_new` if NEW, `min(k, h_new)` if OPEN, `min(cost, h_new)` if CLOSED),
then sets `cost := h_new` and `tag := OPEN`, places one entry with the
computed key for the node into the open list (keeping all existing entries,
as `std::multimap::insert` does), and touches no other node. -/
theorem c7_insert_contract (st : DState) (c : Coord) (h : DVal) :
    ((insert st c h).map c).k = knewOf st c h ∧
    (knewOf st c h = match (st.map c).tag with
      | Tag.NEW => h
      | Tag.OPEN => DVal.minB (st.map c).k h
      | Tag.CLOSED => DVal.minB (st.map c).cost h) ∧
    ((insert st c h).map c).cost = h ∧
    ((insert st c h).map c).tag = Tag.OPEN ∧
    ((insert st c h).openList).Perm ((knewOf st c h, c) :: st.openList) ∧
    (∀ q, q ≠ c → (insert st c h).map q = st.map q) := by
  refine ⟨?_, rfl, ?_, ?_, ?_, ?_⟩
  · simp [insert, updNode]
  · simp [insert, updNode]
  · simp [insert, updNode]
  · exact olInsert_perm _ _
  · intro q hq
    simp [insert, updNode, hq]

/-! Stability of the cost evaluator under updates that keep coordinates and
linear index. -/

theorem getCost_updNode_pidcost (st : DState) (xc : Coord) (p2 : Int)
    (cv : DVal) (a b : Coord) :
    getCost (updNode st xc (fun m => { m with pid := p2, cost := cv })) a b =
      getCost st a b := by
  unfold getCost isCollision updNode
  by_cases ha : a = xc <;> by_cases hb : b = xc <;> simp [ha, hb]

/-- C8: characterization of the RAISE adoption step.  When `processState`
pops `(k_old, x)` with `k_old < x->cost`, it runs `raiseProp` over the
enumerated neighbours; this step (for any neighbour list not containing `x`
itself, as `getNeighbours` guarantees) changes nothing but the `cost` and
`pid` fields of `x`: every other node, the open list, and the `k`, `tag`,
coordinate and index fields of `x` are untouched; `x`'s `cost`/`pid` pair is
either unchanged or equals `(y->cost + edgeCost(y,x), y->id)` for some
enumerated neighbour `y` with `y->cost <= k_old`, in which case the cost
strictly decreased; the cost never increases; and afterwards `x`'s cost is
at most `y->cost + edgeCost(y,x)` for every neighbour `y` with
`y->cost <= k_old`. -/
theorem c8_raise_propagation_contract (xc : Coord) (kOld : DVal) :
    ∀ (ys : List Coord) (st : DState), xc ∉ ys →
    (∀ q, q ≠ xc → (raiseProp st xc kOld ys).map q = st.map q) ∧
    (raiseProp st xc kOld ys).openList = st.openList ∧
    ((raiseProp st xc kOld ys).map xc).k = (st.map xc).k ∧
    ((raiseProp st xc kOld ys).map xc).tag = (st.map xc).tag ∧
    ((raiseProp st xc kOld ys).map xc).x = (st.map xc).x ∧
    ((raiseProp st xc kOld ys).map xc).y = (st.map xc).y ∧
    ((raiseProp st xc kOld ys).map xc).id = (st.map xc).id ∧
    DVal.leB (((raiseProp st xc kOld ys).map xc).cost) ((st.map xc).cost)
      = true ∧
    ((((raiseProp st xc kOld ys).map xc).cost = (st.map xc).cost ∧
        ((raiseProp st xc kOld ys).map xc).pid = (st.map xc).pid) ∨
      (∃ yc ∈ ys, DVal.leB (st.map yc).cost kOld = true ∧
        ((raiseProp st xc kOld ys).map xc).pid = (st.map yc).id ∧
        ((raiseProp st xc kOld ys).map xc).cost =
          DVal.add (st.map yc).cost (getCost st yc xc) ∧
        DVal.ltB (((raiseProp st xc kOld ys).map xc).cost) ((st.map xc).cost)
          = true)) ∧
    (∀ yc ∈ ys, DVal.leB (st.map yc).cost kOld = true →
      DVal.leB (((raiseProp st xc kOld ys).map xc).cost)
        (DVal.add (st.map yc).cost (getCost st yc xc)) = true) := by
  intro ys
  induction ys with
  | nil =>
    intro st _
    refine ⟨fun q _ => rfl, rfl, rfl, rfl, rfl, rfl, rfl, DVal.leB_refl _,
      Or.inl ⟨rfl, rfl⟩, ?_⟩
    intro yc hyc
    exact absurd hyc (List.not_mem_nil yc)
  | cons yc0 rest ih =>
    intro st hx
    have hx0 : xc ≠ yc0 := fun he => hx (he ▸ List.mem_cons_self yc0 rest)
    have hxr : xc ∉ rest := fun hm => hx (List.mem_cons_of_mem yc0 hm)
    by_cases hcond : (DVal.leB (st.map yc0).cost kOld &&
        DVal.ltB (DVal.add (st.map yc0).cost (getCost st yc0 xc))
          (st.map xc).cost) = true
    · -- the head neighbour updates x
      have hstep : raiseProp st xc kOld (yc0 :: rest) =
          raiseProp (updNode st xc (fun m => { m with pid := (st.map yc0).id, cost := DVal.add (st.map yc0).cost (getCost st yc0 xc) })) xc kOld rest := by
        simp only [raiseProp]
        rw [if_pos hcond]
      set st1 := updNode st xc (fun m => { m with pid := (st.map yc0).id, cost := DVal.add (st.map yc0).cost (getCost st yc0 xc) }) with hst1
      have hb12 := hcond
      rw [Bool.and_eq_true] at hb12
      obtain ⟨hb1, hb2⟩ := hb12
      have hmapq : ∀ q, q ≠ xc → st1.map q = st.map q := by
        intro q hq
        simp [hst1, updNode, hq]
      have hmapx : st1.map xc = { st.map xc with pid := (st.map yc0).id, cost := DVal.add (st.map yc0).cost (getCost st yc0 xc) } := by
        simp [hst1, updNode]
      have hgc : ∀ a b, getCost st1 a b = getCost st a b := by
        intro a b
        exact getCost_updNode_pidcost st xc _ _ a b
      obtain ⟨ih1, ih2, ih3, ih4, ih5, ih6, ih7, ih8, ih9, ih10⟩ := ih st1 hxr
      rw [hstep]
      refine ⟨?_, ?_, ?_, ?_, ?_, ?_, ?_, ?_, ?_, ?_⟩
      · intro q hq
        rw [ih1 q hq, hmapq q hq]
      · rw [ih2]
        rfl
      · rw [ih3, hmapx]
      · rw [ih4, hmapx]
      · rw [ih5, hmapx]
      · rw [ih6, hmapx]
      · rw [ih7, hmapx]
      · have h1 : DVal.leB ((raiseProp st1 xc kOld rest).map xc).cost
            (st1.map xc).cost = true := ih8
        rw [hmapx] at h1
        exact DVal.leB_trans h1 (DVal.leB_of_ltB hb2)
      · rcases ih9 with ⟨hc, hp⟩ | ⟨y1, hy1, hq1, hq2, hq3, hq4⟩
        · refine Or.inr ⟨yc0, List.mem_cons_self yc0 rest, hb1, ?_, ?_, ?_⟩
          · rw [hp, hmapx]
          · rw [hc, hmapx]
          · rw [hc, hmapx]
            exact hb2
        · refine Or.inr ⟨y1, List.mem_cons_of_mem yc0 hy1, ?_, ?_, ?_, ?_⟩
          · rwa [hmapq y1 (fun he => hxr (he ▸ hy1))] at hq1
          · rw [hq2, hmapq y1 (fun he => hxr (he ▸ hy1))]
          · rw [hq3, hmapq y1 (fun he => hxr (he ▸ hy1)), hgc]
          · have : DVal.ltB ((raiseProp st1 xc kOld rest).map xc).cost
                (st1.map xc).cost = true := hq4
            rw [hmapx] at this
            exact DVal.ltB_of_ltB_of_leB this (DVal.leB_of_ltB hb2)
      · intro y1 hy1 hq
        rcases List.mem_cons.mp hy1 with he | hm
        · subst he
          have h1 : DVal.leB ((raiseProp st1 xc kOld rest).map xc).cost
              (st1.map xc).cost = true := ih8
          rw [hmapx] at h1
          exact h1
        · have hne : y1 ≠ xc := fun he => hxr (he ▸ hm)
          have := ih10 y1 hm (by rwa [hmapq y1 hne])
          rwa [hmapq y1 hne, hgc] at this
    · -- the head neighbour does not qualify; the state is unchanged
      have hstep : raiseProp st xc kOld (yc0 :: rest) =
          raiseProp st xc kOld rest := by
        simp only [raiseProp]
        rw [if_neg hcond]
      obtain ⟨ih1, ih2, ih3, ih4, ih5, ih6, ih7, ih8, ih9, ih10⟩ := ih st hxr
      rw [hstep]
      refine ⟨ih1, ih2, ih3, ih4, ih5, ih6, ih7, ih8, ?_, ?_⟩
      · rcases ih9 with h | ⟨y1, hy1, hrest⟩
        · exact Or.inl h
        · exact Or.inr ⟨y1, List.mem_cons_of_mem yc0 hy1, hrest⟩
      · intro y1 hy1 hq
        rcases List.mem_cons.mp hy1 with he | hm
        · subst he
          rcases Bool.and_eq_false_iff.mp (Bool.eq_false_iff.mpr hcond)
            with hf | hf
          · rw [hq] at hf
            exact absurd rfl (Bool.eq_false_iff.mp hf)
          · have hle := DVal.leB_of_not_ltB (Bool.eq_false_iff.mp hf)
            exact DVal.leB_trans ih8 hle
        · exact ih10 y1 hm hq

/-! Shape of the `extractPath` accumulation (claim C2). -/

theorem pathAcc_spec (st : DState) (g : Coord) :
    ∀ (fuel : ℕ) (c : Coord) (acc : List Coord),
      pathAcc st g c fuel = some acc → ¬ atGoal st c g →
      acc.head? = some c ∧
      (∀ q ∈ acc, ¬ atGoal st q g) ∧
      ∃ l, acc.getLast? = some l ∧
        atGoal st (index2Grid st.nx ((st.map l).pid)) g := by
  intro fuel
  induction fuel with
  | zero =>
    intro c acc h _
    exact absurd h (by simp [pathAcc])
  | succ n ih =>
    intro c acc h hng
    unfold pathAcc at h
    rw [if_neg hng] at h
    obtain ⟨l, heq, hcons⟩ := Option.map_eq_some'.mp h
    by_cases hg2 : atGoal st (index2Grid st.nx ((st.map c).pid)) g
    · have hl : l = [] := by
        cases n with
        | zero => exact absurd heq (by simp [pathAcc])
        | succ m =>
          unfold pathAcc at heq
          rw [if_pos hg2] at heq
          exact (Option.some.inj heq).symm
      subst hl
      rw [← hcons]
      refine ⟨rfl, ?_, c, rfl, hg2⟩
      intro q hq
      rw [List.mem_singleton.mp hq]
      exact hng
    · obtain ⟨hhead, hmem, l0, hlast, hat⟩ := ih _ l heq hg2
      obtain ⟨l1, t, hl1⟩ : ∃ l1 t, l = l1 :: t := by
        cases l with
        | nil => exact absurd hhead (by simp)
        | cons a b => exact ⟨a, b, rfl⟩
      rw [← hcons]
      refine ⟨rfl, ?_, l0, ?_, hat⟩
      · intro q hq
        rcases List.mem_cons.mp hq with h1 | h2
        · rw [h1]
          exact hng
        · exact hmem q h2
      · rw [hl1] at hlast ⊢
        rw [List.getLast?_cons_cons]
        exact hlast

/-- C2 amended: for a successful `extractPath(from, to)` whose start node
does not already carry the goal coordinates and whose goal cell node
carries its own coordinates (as every node the planner builds does), the
returned path is the reversal of the accumulated predecessor chain: its
last element is the start `from`; its first element is the final node of
the chain — the node whose predecessor link reaches `to`; no element of
the path carries the goal coordinates (the accumulation loop stops at the
first such node without pushing it); and in particular the goal coordinate
is not an element of the path. -/
theorem c2_amended_extract_shape (st : DState) (s g : Coord) (fuel : ℕ)
    (L : List Coord) (hL : extractPath st s g fuel = some L)
    (hs : ¬ atGoal st s g) (hgg : atGoal st g g) :
    L.getLast? = some s ∧
    (∃ h1, L.head? = some h1 ∧
      atGoal st (index2Grid st.nx ((st.map h1).pid)) g) ∧
    (∀ q ∈ L, ¬ atGoal st q g) ∧
    g ∉ L := by
  obtain ⟨acc, hacc, hrev⟩ := Option.map_eq_some'.mp hL
  obtain ⟨hhead, hmem, l0, hlast, hat⟩ := pathAcc_spec st g fuel s acc hacc hs
  subst hrev
  have hmemL : ∀ q ∈ acc.reverse, ¬ atGoal st q g := by
    intro q hq
    exact hmem q (List.mem_reverse.mp hq)
  refine ⟨?_, ⟨l0, ?_, hat⟩, hmemL, ?_⟩
  · rw [List.getLast?_reverse]
    exact hhead
  · rw [List.head?_reverse]
    exact hlast
  · intro hg
    exact hmemL g hg hgg

/-- Witness for the amended C2 statement on the diagonal scenario: the
extracted path is `[(1,1),(0,0)]`, whose last element is the start `(0,0)`
and whose first element `(1,1)` has its predecessor link at the goal
`(2,2)`; no element carries the goal coordinates and the goal `(2,2)` is
not an element of the path. -/
theorem c2_amended_extract_shape_witness :
    extractPath diagStA (0,0) (2,2) 20 = some [(1,1),(0,0)] ∧
    ¬ atGoal diagStA (0,0) (2,2) ∧
    atGoal diagStA (2,2) (2,2) ∧
    (([(1,1),(0,0)] : List Coord).getLast? = some (0,0) ∧
      (∃ h1, ([(1,1),(0,0)] : List Coord).head? = some h1 ∧
        atGoal diagStA (index2Grid diagStA.nx ((diagStA.map h1).pid)) (2,2)) ∧
      (∀ q ∈ ([(1,1),(0,0)] : List Coord), ¬ atGoal diagStA q (2,2)) ∧
      ((2,2) : Coord) ∉ ([(1,1),(0,0)] : List Coord)) :=
  ⟨by decide, by decide, by decide,
    c2_amended_extract_shape diagStA (0,0) (2,2) 20 [(1,1),(0,0)]
      (by decide) (by decide) (by decide)⟩

/-- Witness for C8 on a concrete state: the RAISE step over the neighbour
list `[(0,0),(2,2)]` of node `(1,1)` leaves the open list unchanged. -/
theorem c8_raise_propagation_contract_witness :
    ((1,1) : Coord) ∉ ([(0,0),(2,2)] : List Coord) ∧
    (raiseProp grid33 (1,1) (DVal.val 5 0) [(0,0),(2,2)]).openList =
      grid33.openList :=
  ⟨by decide,
    (c8_raise_propagation_contract (1,1) (DVal.val 5 0) [(0,0),(2,2)] grid33
      (by decide)).2.1⟩

/-! Sortedness of the open list (claim C6, amended). -/

theorem mem_olInsert {e q : DVal × Coord} :
    ∀ {l : List (DVal × Coord)}, q ∈ olInsert e l → q = e ∨ q ∈ l := by
  intro l
  induction l with
  | nil =>
    intro h
    simp [olInsert] at h
    exact Or.inl h
  | cons hd t ih =>
    intro h
    unfold olInsert at h
    by_cases hc : DVal.leB hd.1 e.1 = true
    · rw [if_pos hc] at h
      rcases List.mem_cons.mp h with h1 | h2
      · exact Or.inr (h1 ▸ List.mem_cons_self hd t)
      · rcases ih h2 with h3 | h4
        · exact Or.inl h3
        · exact Or.inr (List.mem_cons_of_mem hd h4)
    · rw [if_neg hc] at h
      rcases List.mem_cons.mp h with h1 | h2
      · exact Or.inl h1
      · exact Or.inr h2

theorem olInsert_sorted {e : DVal × Coord} :
    ∀ {l : List (DVal × Coord)}, keysSorted l → keysSorted (olInsert e l) := by
  intro l
  induction l with
  | nil =>
    intro _
    exact List.pairwise_singleton _ _
  | cons hd t ih =>
    intro hs
    obtain ⟨hhd, ht⟩ := List.pairwise_cons.mp hs
    unfold olInsert
    by_cases hc : DVal.leB hd.1 e.1 = true
    · rw [if_pos hc]
      refine List.pairwise_cons.mpr ⟨?_, ih ht⟩
      intro q hq
      rcases mem_olInsert hq with h1 | h2
      · rw [h1]
        exact hc
      · exact hhd q h2
    · rw [if_neg hc]
      refine List.pairwise_cons.mpr ⟨?_, hs⟩
      intro q hq
      rcases List.mem_cons.mp hq with h1 | h2
      · rw [h1]
        exact DVal.leB_of_not_leB hc
      · exact DVal.leB_trans (DVal.leB_of_not_leB hc) (hhd q h2)

theorem insert_openList (st : DState) (c : Coord) (h : DVal) :
    (insert st c h).openList = olInsert (knewOf st c h, c) st.openList := rfl

theorem insert_sorted {st : DState} {c : Coord} {h : DVal}
    (hs : keysSorted st.openList) : keysSorted (insert st c h).openList := by
  rw [insert_openList]
  exact olInsert_sorted hs

theorem raiseProp_openList (xc : Coord) (kOld : DVal) :
    ∀ (ys : List Coord) (st : DState),
      (raiseProp st xc kOld ys).openList = st.openList := by
  intro ys
  induction ys with
  | nil => intro st; rfl
  | cons yc rest ih =>
    intro st
    simp only [raiseProp]
    split
    · rw [ih]
      rfl
    · rw [ih]

theorem lowerFold_sorted (xc : Coord) :
    ∀ (ys : List Coord) (st : DState), keysSorted st.openList →
      keysSorted (lowerFold st xc ys).openList := by
  intro ys
  induction ys with
  | nil => intro st hs; exact hs
  | cons yc rest ih =>
    intro st hs
    simp only [lowerFold]
    split
    · exact ih _ (insert_sorted hs)
    · exact ih _ hs

theorem elseFold_sorted (xc : Coord) (kOld : DVal) :
    ∀ (ys : List Coord) (st : DState), keysSorted st.openList →
      keysSorted (elseFold st xc kOld ys).openList := by
  intro ys
  induction ys with
  | nil => intro st hs; exact hs
  | cons yc rest ih =>
    intro st hs
    simp only [elseFold]
    split
    · exact ih _ (insert_sorted hs)
    · split
      · exact ih _ (insert_sorted hs)
      · split
        · exact ih _ (insert_sorted hs)
        · exact ih _ hs

theorem stepSt_sorted (st : DState) (hs : keysSorted st.openList) :
    keysSorted (stepSt st).openList := by
  rcases hl : st.openList with _ | ⟨⟨k, xc⟩, rest⟩
  · rw [stepSt_of_empty hl]
    exact hs
  · have hrest : keysSorted rest := by
      rw [hl] at hs
      exact (List.pairwise_cons.mp hs).2
    simp only [stepSt, processState, hl]
    split
    · split
      · apply lowerFold_sorted
        rw [raiseProp_openList]
        exact hrest
      · apply elseFold_sorted
        rw [raiseProp_openList]
        exact hrest
    · split
      · apply lowerFold_sorted
        exact hrest
      · apply elseFold_sorted
        exact hrest

/-- C6 amended: `processState` always pops a minimum-key entry — the open
list is maintained in key-sorted order (every insertion goes through the
ordered `olInsert`, and popping preserves sortedness), so the popped key is
at most every key currently in the list.  The popped keys of successive
invocations of a single loop need not be globally non-decreasing, as the
counterexample shows: during incremental repair an invocation can insert
entries below the previously popped key. -/
theorem c6_amended_min_key_pop (st : DState) (k : DVal) (xc : Coord)
    (rest : List (DVal × Coord)) (hl : st.openList = (k, xc) :: rest)
    (hs : keysSorted st.openList) :
    (∀ e ∈ st.openList, DVal.leB k e.1 = true) ∧
    keysSorted (stepSt st).openList := by
  constructor
  · intro e he
    rw [hl] at he
    rcases List.mem_cons.mp he with h1 | h2
    · rw [h1]
      exact DVal.leB_refl k
    · have hs' := hs
      rw [hl] at hs'
      exact (List.pairwise_cons.mp hs').1 e h2
  · exact stepSt_sorted st hs

/-- Witness for the amended C6 statement: at the C1 scenario entry state the
open list is the single goal entry with key 0; the popped key 0 is minimal
and the successor list is sorted. -/
theorem c6_amended_min_key_pop_witness :
    c1Start.openList = [(DVal.val 0 0, (2,2))] ∧
    keysSorted c1Start.openList ∧
    ((∀ e ∈ c1Start.openList, DVal.leB (DVal.val 0 0) e.1 = true) ∧
      keysSorted (stepSt c1Start).openList) :=
  ⟨by decide, by decide,
    c6_amended_min_key_pop c1Start (DVal.val 0 0) (2,2) [] (by decide)
      (by decide)⟩

/-! Preservation lemmas for the fresh-goal search invariant (claim C10). -/

theorem getCost_nonneg (st : DState) (a b : Coord) :
    DVal.leB (DVal.val 0 0) (getCost st a b) = true := by
  unfold getCost
  split
  · rfl
  · dsimp only
    split
    · decide
    · split
      · split
        · decide
        · decide
      · rfl

theorem updNode_map_same (st : DState) (c : Coord) (f : DNode → DNode) :
    (updNode st c f).map c = f (st.map c) := by
  simp [updNode]

theorem updNode_map_ne (st : DState) (c q : Coord) (f : DNode → DNode)
    (hq : q ≠ c) : (updNode st c f).map q = st.map q := by
  simp [updNode, hq]

theorem insert_map_same (st : DState) (c : Coord) (h : DVal) :
    (insert st c h).map c =
      { st.map c with k := knewOf st c h, cost := h, tag := Tag.OPEN } := by
  simp [insert, updNode]

theorem insert_map_ne (st : DState) (c q : Coord) (h : DVal) (hq : q ≠ c) :
    (insert st c h).map q = st.map q := by
  simp [insert, updNode, hq]

theorem knewOf_nonneg {st : DState} {c : Coord} {h : DVal}
    (hk : DVal.leB (DVal.val 0 0) (st.map c).k = true)
    (hc : DVal.leB (DVal.val 0 0) (st.map c).cost = true)
    (hh : DVal.leB (DVal.val 0 0) h = true) :
    DVal.leB (DVal.val 0 0) (knewOf st c h) = true := by
  unfold knewOf
  cases htag : (st.map c).tag
  · exact hh
  · exact DVal.zero_leB_minB hk hh
  · exact DVal.zero_leB_minB hc hh

theorem insert_pres {g : Coord} {st : DState} {c : Coord} {h : DVal}
    (hinv : GoalInv g st) (hc : inExt st.nx st.ny c)
    (hh : DVal.leB (DVal.val 0 0) h = true)
    (hg : c = g → h = DVal.val 0 0) :
    GoalInv g (insert st c h) := by
  refine ⟨hinv.nxNonneg, hinv.nyNonneg, ?_, ?_, ?_, ?_, ?_, ?_, ?_, ?_⟩
  · by_cases hgc : g = c
    · rw [hgc, insert_map_same]
      exact hg hgc.symm
    · rw [insert_map_ne st c g h hgc]
      exact hinv.goalCost
  · by_cases hgc : g = c
    · rw [hgc, insert_map_same]
      show (st.map c).pid = -1
      rw [← hgc]
      exact hinv.goalPid
    · rw [insert_map_ne st c g h hgc]
      exact hinv.goalPid
  · by_cases hgc : g = c
    · rw [hgc, insert_map_same]
      exact fun hcon => Tag.noConfusion hcon
    · rw [insert_map_ne st c g h hgc]
      exact hinv.goalTag
  · intro q
    by_cases hq : q = c
    · rw [hq, insert_map_same]
      exact hh
    · rw [insert_map_ne st c q h hq]
      exact hinv.costNonneg q
  · intro q
    by_cases hq : q = c
    · rw [hq, insert_map_same]
      exact knewOf_nonneg (hinv.kNonneg c) (hinv.costNonneg c) hh
    · rw [insert_map_ne st c q h hq]
      exact hinv.kNonneg q
  · intro e he
    rcases mem_olInsert he with h1 | h2
    · rw [h1]
      exact knewOf_nonneg (hinv.kNonneg c) (hinv.costNonneg c) hh
    · exact hinv.keysNonneg e h2
  · intro e he
    rcases mem_olInsert he with h1 | h2
    · rw [h1]
      exact hc
    · exact hinv.coordsExt e h2
  · intro q hq
    by_cases hqc : q = c
    · rw [hqc, insert_map_same]
      show 0 ≤ (st.map c).id
      rw [← hqc]
      exact hinv.idNonneg q hq
    · rw [insert_map_ne st c q h hqc]
      exact hinv.idNonneg q hq

theorem getNeighbours_inExt (st : DState) (c q : Coord)
    (hq : q ∈ getNeighbours st c) : inExt st.nx st.ny q := by
  unfold getNeighbours at hq
  have hq2 := (List.mem_filter.mp hq).1
  unfold boundsPass at hq2
  have hq3 := (List.mem_filter.mp hq2).2
  simp only [Bool.not_eq_true', Bool.or_eq_false_iff,
    decide_eq_false_iff_not, not_lt] at hq3
  obtain ⟨⟨⟨h1, h2⟩, h3⟩, h4⟩ := hq3
  exact ⟨h1, h2, h3, h4⟩

theorem raiseProp_nx (xc : Coord) (kOld : DVal) :
    ∀ (ys : List Coord) (st : DState), (raiseProp st xc kOld ys).nx = st.nx := by
  intro ys
  induction ys with
  | nil => intro st; rfl
  | cons yc rest ih =>
    intro st
    simp only [raiseProp]
    split
    · rw [ih]
      rfl
    · rw [ih]

theorem raiseProp_ny (xc : Coord) (kOld : DVal) :
    ∀ (ys : List Coord) (st : DState), (raiseProp st xc kOld ys).ny = st.ny := by
  intro ys
  induction ys with
  | nil => intro st; rfl
  | cons yc rest ih =>
    intro st
    simp only [raiseProp]
    split
    · rw [ih]
      rfl
    · rw [ih]

theorem raiseProp_pres {g : Coord} (xc : Coord) (kOld : DVal) :
    ∀ (ys : List Coord) (st : DState), GoalInv g st → xc ≠ g →
      GoalInv g (raiseProp st xc kOld ys) := by
  intro ys
  induction ys with
  | nil =>
    intro st h _
    exact h
  | cons yc rest ih =>
    intro st hinv hxg
    simp only [raiseProp]
    split
    · refine ih _ ?_ hxg
      have hgx : g ≠ xc := fun he => hxg he.symm
      refine ⟨hinv.nxNonneg, hinv.nyNonneg, ?_, ?_, ?_, ?_, ?_,
        hinv.keysNonneg, hinv.coordsExt, ?_⟩
      · rw [updNode_map_ne st xc g _ hgx]
        exact hinv.goalCost
      · rw [updNode_map_ne st xc g _ hgx]
        exact hinv.goalPid
      · rw [updNode_map_ne st xc g _ hgx]
        exact hinv.goalTag
      · intro q
        by_cases hq : q = xc
        · rw [hq, updNode_map_same]
          exact DVal.zero_leB_add (hinv.costNonneg yc) (getCost_nonneg st yc xc)
        · rw [updNode_map_ne st xc q _ hq]
          exact hinv.costNonneg q
      · intro q
        by_cases hq : q = xc
        · rw [hq, updNode_map_same]
          exact hinv.kNonneg xc
        · rw [updNode_map_ne st xc q _ hq]
          exact hinv.kNonneg q
      · intro q hq
        by_cases hqc : q = xc
        · rw [hqc, updNode_map_same]
          show 0 ≤ (st.map xc).id
          rw [← hqc]
          exact hinv.idNonneg q hq
        · rw [updNode_map_ne st xc q _ hqc]
          exact hinv.idNonneg q hq
    · exact ih _ hinv hxg

theorem lowerFold_pres {g : Coord} (xc : Coord) :
    ∀ (ys : List Coord) (st : DState), GoalInv g st →
      inExt st.nx st.ny xc → (∀ y ∈ ys, inExt st.nx st.ny y) →
      GoalInv g (lowerFold st xc ys) := by
  intro ys
  induction ys with
  | nil =>
    intro st hinv _ _
    exact hinv
  | cons yc rest ih =>
    intro st hinv hxc hys
    simp only [lowerFold]
    split
    next hcond =>
      have hyg : yc ≠ g := by
        intro he
        subst he
        rcases hcond with h1 | ⟨h2a, _⟩ | ⟨_, h3b⟩
        · exact hinv.goalTag h1
        · have hid := hinv.idNonneg xc hxc
          rw [hinv.goalPid] at h2a
          omega
        · rw [hinv.goalCost] at h3b
          exact DVal.not_ltB_zero
            (DVal.zero_leB_add (hinv.costNonneg xc) (getCost_nonneg st xc yc)) h3b
      have hupd : GoalInv g
          (updNode st yc (fun m => { m with pid := (st.map xc).id })) := by
        have hgy : g ≠ yc := fun he => hyg he.symm
        refine ⟨hinv.nxNonneg, hinv.nyNonneg, ?_, ?_, ?_, ?_, ?_,
          hinv.keysNonneg, hinv.coordsExt, ?_⟩
        · rw [updNode_map_ne st yc g _ hgy]
          exact hinv.goalCost
        · rw [updNode_map_ne st yc g _ hgy]
          exact hinv.goalPid
        · rw [updNode_map_ne st yc g _ hgy]
          exact hinv.goalTag
        · intro q
          by_cases hq : q = yc
          · rw [hq, updNode_map_same]
            exact hinv.costNonneg yc
          · rw [updNode_map_ne st yc q _ hq]
            exact hinv.costNonneg q
        · intro q
          by_cases hq : q = yc
          · rw [hq, updNode_map_same]
            exact hinv.kNonneg yc
          · rw [updNode_map_ne st yc q _ hq]
            exact hinv.kNonneg q
        · intro q hq
          by_cases hqc : q = yc
          · rw [hqc, updNode_map_same]
            show 0 ≤ (st.map yc).id
            rw [hqc] at hq
            exact hinv.idNonneg yc hq
          · rw [updNode_map_ne st yc q _ hqc]
            exact hinv.idNonneg q hq
      refine ih _ ?_ hxc ?_
      · exact insert_pres hupd (hys yc (List.mem_cons_self yc rest))
          (DVal.zero_leB_add (hinv.costNonneg xc) (getCost_nonneg st xc yc))
          (fun he => absurd he hyg)
      · exact fun y hy => hys y (List.mem_cons_of_mem yc hy)
    next =>
      exact ih _ hinv hxc (fun y hy => hys y (List.mem_cons_of_mem yc hy))

theorem elseFold_pres {g : Coord} (xc : Coord) (kOld : DVal) :
    ∀ (ys : List Coord) (st : DState), GoalInv g st →
      inExt st.nx st.ny xc → (∀ y ∈ ys, inExt st.nx st.ny y) →
      GoalInv g (elseFold st xc kOld ys) := by
  intro ys
  induction ys with
  | nil =>
    intro st hinv _ _
    exact hinv
  | cons yc rest ih =>
    intro st hinv hxc hys
    simp only [elseFold]
    split
    next hcond =>
      have hyg : yc ≠ g := by
        intro he
        subst he
        rcases hcond with h1 | ⟨h2a, _⟩
        · exact hinv.goalTag h1
        · have hid := hinv.idNonneg xc hxc
          rw [hinv.goalPid] at h2a
          omega
      have hupd : GoalInv g
          (updNode st yc (fun m => { m with pid := (st.map xc).id })) := by
        have hgy : g ≠ yc := fun he => hyg he.symm
        refine ⟨hinv.nxNonneg, hinv.nyNonneg, ?_, ?_, ?_, ?_, ?_,
          hinv.keysNonneg, hinv.coordsExt, ?_⟩
        · rw [updNode_map_ne st yc g _ hgy]
          exact hinv.goalCost
        · rw [updNode_map_ne st yc g _ hgy]
          exact hinv.goalPid
        · rw [updNode_map_ne st yc g _ hgy]
          exact hinv.goalTag
        · intro q
          by_cases hq : q = yc
          · rw [hq, updNode_map_same]
            exact hinv.costNonneg yc
          · rw [updNode_map_ne st yc q _ hq]
            exact hinv.costNonneg q
        · intro q
          by_cases hq : q = yc
          · rw [hq, updNode_map_same]
            exact hinv.kNonneg yc
          · rw [updNode_map_ne st yc q _ hq]
            exact hinv.kNonneg q
        · intro q hq
          by_cases hqc : q = yc
          · rw [hqc, updNode_map_same]
            show 0 ≤ (st.map yc).id
            rw [hqc] at hq
            exact hinv.idNonneg yc hq
          · rw [updNode_map_ne st yc q _ hqc]
            exact hinv.idNonneg q hq
      refine ih _ ?_ hxc ?_
      · exact insert_pres hupd (hys yc (List.mem_cons_self yc rest))
          (DVal.zero_leB_add (hinv.costNonneg xc) (getCost_nonneg st xc yc))
          (fun he => absurd he hyg)
      · exact fun y hy => hys y (List.mem_cons_of_mem yc hy)
    next =>
      split
      next =>
        refine ih _ ?_ hxc ?_
        · refine insert_pres hinv hxc (hinv.costNonneg xc) ?_
          intro hxg
          rw [hxg]
          exact hinv.goalCost
        · exact fun y hy => hys y (List.mem_cons_of_mem yc hy)
      next =>
        split
        next =>
          refine ih _ ?_ hxc ?_
          · refine insert_pres hinv (hys yc (List.mem_cons_self yc rest))
              (hinv.costNonneg yc) ?_
            intro hyg2
            rw [hyg2]
            exact hinv.goalCost
          · exact fun y hy => hys y (List.mem_cons_of_mem yc hy)
        next =>
          exact ih _ hinv hxc (fun y hy => hys y (List.mem_cons_of_mem yc hy))

theorem stepSt_pres {g : Coord} {st : DState} (hinv : GoalInv g st) :
    GoalInv g (stepSt st) := by
  rcases hl : st.openList with _ | ⟨⟨k, xc⟩, rest⟩
  · rw [stepSt_of_empty hl]
    exact hinv
  · have hk0 : DVal.leB (DVal.val 0 0) k = true := by
      refine hinv.keysNonneg (k, xc) ?_
      rw [hl]
      exact List.mem_cons_self _ _
    have hxcext : inExt st.nx st.ny xc := by
      exact hinv.coordsExt (k, xc) (by rw [hl]; exact List.mem_cons_self _ _)
    have hinv1 : GoalInv g (updNode { st with openList := rest } xc
        (fun m => { m with tag := Tag.CLOSED })) := by
      refine ⟨hinv.nxNonneg, hinv.nyNonneg, ?_, ?_, ?_, ?_, ?_, ?_, ?_, ?_⟩
      · by_cases hgq : g = xc
        · rw [hgq, updNode_map_same]
          show (st.map xc).cost = DVal.val 0 0
          rw [← hgq]
          exact hinv.goalCost
        · rw [updNode_map_ne _ xc g _ hgq]
          exact hinv.goalCost
      · by_cases hgq : g = xc
        · rw [hgq, updNode_map_same]
          show (st.map xc).pid = -1
          rw [← hgq]
          exact hinv.goalPid
        · rw [updNode_map_ne _ xc g _ hgq]
          exact hinv.goalPid
      · by_cases hgq : g = xc
        · rw [hgq, updNode_map_same]
          exact fun hcon => Tag.noConfusion hcon
        · rw [updNode_map_ne _ xc g _ hgq]
          exact hinv.goalTag
      · intro q
        by_cases hq : q = xc
        · rw [hq, updNode_map_same]
          exact hinv.costNonneg xc
        · rw [updNode_map_ne _ xc q _ hq]
          exact hinv.costNonneg q
      · intro q
        by_cases hq : q = xc
        · rw [hq, updNode_map_same]
          exact hinv.kNonneg xc
        · rw [updNode_map_ne _ xc q _ hq]
          exact hinv.kNonneg q
      · intro e he
        exact hinv.keysNonneg e (by rw [hl]; exact List.mem_cons_of_mem _ he)
      · intro e he
        exact hinv.coordsExt e (by rw [hl]; exact List.mem_cons_of_mem _ he)
      · intro q hq
        by_cases hqc : q = xc
        · rw [hqc, updNode_map_same]
          show 0 ≤ (st.map xc).id
          rw [hqc] at hq
          exact hinv.idNonneg xc hq
        · rw [updNode_map_ne _ xc q _ hqc]
          exact hinv.idNonneg q hq
    simp only [stepSt, processState, hl]
    split
    next hraise =>
      have hxg : xc ≠ g := by
        intro he
        rw [he] at hraise
        rw [updNode_map_same] at hraise
        have hz : DVal.ltB k (st.map g).cost = true := hraise
        rw [hinv.goalCost] at hz
        exact DVal.not_ltB_zero hk0 hz
      split
      next =>
        refine lowerFold_pres xc _ _ (raiseProp_pres xc k _ _ hinv1 hxg) ?_ ?_
        · rw [raiseProp_nx, raiseProp_ny]
          exact hxcext
        · intro y hy
          rw [raiseProp_nx, raiseProp_ny]
          exact getNeighbours_inExt _ xc y hy
      next =>
        refine elseFold_pres xc k _ _ (raiseProp_pres xc k _ _ hinv1 hxg) ?_ ?_
        · rw [raiseProp_nx, raiseProp_ny]
          exact hxcext
        · intro y hy
          rw [raiseProp_nx, raiseProp_ny]
          exact getNeighbours_inExt _ xc y hy
    next =>
      split
      next =>
        refine lowerFold_pres xc _ _ hinv1 hxcext ?_
        intro y hy
        exact getNeighbours_inExt _ xc y hy
      next =>
        refine elseFold_pres xc k _ _ hinv1 hxcext ?_
        intro y hy
        exact getNeighbours_inExt _ xc y hy

theorem iterN_pres {g : Coord} {st : DState} (hinv : GoalInv g st) :
    ∀ n : ℕ, GoalInv g (iterN n st) := by
  intro n
  induction n with
  | zero => exact hinv
  | succ m ih => exact stepSt_pres ih

theorem goalInv_init (nx ny thr : Int) (cm cm0 : Int → Int) (g : Coord)
    (hnx : 0 ≤ nx) (hny : 0 ≤ ny) (hg : inExt nx ny g) :
    GoalInv g (insert { (reset { (mkState nx ny thr cm0) with costmap := cm })
      with goal := g } g (DVal.val 0 0)) := by
  refine ⟨hnx, hny, ?_, ?_, ?_, ?_, ?_, ?_, ?_, ?_⟩
  · rw [insert_map_same]
  · rw [insert_map_same]
    rfl
  · rw [insert_map_same]
    exact fun hcon => Tag.noConfusion hcon
  · intro q
    by_cases hq : q = g
    · rw [hq, insert_map_same]
      exact DVal.leB_refl _
    · rw [insert_map_ne _ _ _ _ hq]
      rfl
  · intro q
    by_cases hq : q = g
    · rw [hq, insert_map_same]
      exact DVal.leB_refl (DVal.val 0 0)
    · rw [insert_map_ne _ _ _ _ hq]
      rfl
  · intro e he
    rcases mem_olInsert he with h1 | h2
    · rw [h1]
      exact DVal.leB_refl (DVal.val 0 0)
    · exact absurd h2 (List.not_mem_nil e)
  · intro e he
    rcases mem_olInsert he with h1 | h2
    · rw [h1]
      exact hg
    · exact absurd h2 (List.not_mem_nil e)
  · intro q hq
    have hm : 0 ≤ nx * q.2 := mul_nonneg hnx hq.2.2.1
    have h1 : 0 ≤ q.1 := hq.1
    by_cases hqg : q = g
    · rw [hqg, insert_map_same]
      show 0 ≤ g.1 + nx * g.2
      rw [hqg] at hm h1
      omega
    · rw [insert_map_ne _ _ _ _ hqg]
      show 0 ≤ q.1 + nx * q.2
      omega

/-- C10: in the fresh-goal backward search — after `reset`, storing the
goal and inserting the goal node with cost 0, exactly as the fresh branch
of `plan` builds its starting state — every number of subsequent
`processState` calls leaves the goal node with cost 0 and predecessor
sentinel -1, for every grid size, threshold, cost map and in-bounds
goal. -/
theorem c10_goal_node_invariant (nx ny thr : Int) (cm cm0 : Int → Int)
    (g : Coord) (n : ℕ) (hnx : 0 ≤ nx) (hny : 0 ≤ ny)
    (hg : inBounds nx ny g) :
    ((iterN n (insert { (reset { (mkState nx ny thr cm0) with costmap := cm })
        with goal := g } g (DVal.val 0 0))).map g).cost = DVal.val 0 0 ∧
    ((iterN n (insert { (reset { (mkState nx ny thr cm0) with costmap := cm })
        with goal := g } g (DVal.val 0 0))).map g).pid = -1 := by
  have hext : inExt nx ny g :=
    ⟨hg.1, le_of_lt hg.2.1, hg.2.2.1, le_of_lt hg.2.2.2⟩
  have h0 := goalInv_init nx ny thr cm cm0 g hnx hny hext
  have hn := iterN_pres h0 n
  exact ⟨hn.goalCost, hn.goalPid⟩

/-- Witness for C10: on a fully free 2×2 grid with goal `(1,1)`, after the
goal insertion and 4 `processState` calls the goal node still has cost 0
and predecessor -1. -/
theorem c10_goal_node_invariant_witness :
    ((0:Int) ≤ 2) ∧ ((0:Int) ≤ 2) ∧ inBounds 2 2 (1,1) ∧
    (((iterN 4 (insert { (reset { (mkState 2 2 200 (fun _ => 0)) with
        costmap := (fun _ => (0:Int)) }) with goal := ((1:Int),(1:Int)) }
        (1,1) (DVal.val 0 0))).map (1,1)).cost = DVal.val 0 0 ∧
      ((iterN 4 (insert { (reset { (mkState 2 2 200 (fun _ => 0)) with
        costmap := (fun _ => (0:Int)) }) with goal := ((1:Int),(1:Int)) }
        (1,1) (DVal.val 0 0))).map (1,1)).pid = -1) :=
  ⟨by decide, by decide, by decide,
    c10_goal_node_invariant 2 2 200 (fun _ => 0) (fun _ => 0) (1,1) 4
      (by decide) (by decide) (by decide)⟩

/-- Witness for C9: applying the determinism statement at a concrete pair of
equal states and cost maps. -/
theorem c9_plan_deterministic_witness :
    plan grid33 diagCm (0,0) (2,2) 0 0 20 =
      plan grid33 diagCm (0,0) (2,2) 0 0 20 :=
  c9_plan_deterministic.1 grid33 grid33 diagCm diagCm (0,0) (2,2) 0 0 20
    rfl rfl

end DStarModel
